import Mathlib

/-!
# Verification of the astroABC ABC-SMC sampler specification

The repository ships only an example notebook; the sampler library itself
(class `ABC_class` and its collaborators) is not present in the source tree.
Every definition below carrying a `Modelled from the spec:` doc comment is
therefore a shallow embedding built from the specification's own words
(spec.md sections 3, 4.1-4.6, 6, 7), and the theorems check the spec's
claims against that model.

Real-valued quantities of the sampler (parameters, weights, distances,
tolerances) are modelled over `ℚ`, except for the analytic fixed tolerance
schedule, whose exponential shape needs real exponentiation and lives
over `ℝ`.
-/

namespace AstroABC

/-- Modelled from the spec: the error taxonomy of section 7 (the library's
exception classes are not in the source tree).  `configurationError` for
invalid parameter combinations, `proposalExhausted` for a perturbation
kernel that finds no in-support proposal within the retry budget,
`evaluationFailure` for a user simulation/distance function that raised,
`checkpointError` for a corrupt restart file. -/
inductive ABCError where
  | configurationError : ABCError
  | proposalExhausted : ABCError
  | evaluationFailure : ABCError
  | checkpointError : ABCError
  deriving DecidableEq, Repr

/-- Modelled from the spec: a distance value.  A successful evaluation
yields a finite scalar distance; a failed evaluation is recorded as an
infinite distance (spec section 4.5), so the type has a distinguished
infinity. -/
inductive Dist where
  | fin : ℚ → Dist
  | inf : Dist
  deriving DecidableEq, Repr

/-- A distance is accepted under tolerance `tol` when it is finite and at
most `tol`; an infinite distance is never accepted. -/
def Dist.accepted : Dist → ℚ → Bool
  | .fin q, tol => q ≤ tol
  | .inf, _ => false

/-- Modelled from the spec: a particle (spec section 3): an ordered vector
of real-valued parameters paired with an importance weight and a
distance. -/
structure Particle where
  params : List ℚ
  weight : ℚ
  dist : Dist
  deriving DecidableEq, Repr

/-- The finite value of a particle's distance, when it has one. -/
def Dist.finValue : Dist → Option ℚ
  | .fin q => some q
  | .inf => none

/-- The list of (finite) distances of a population. -/
def popDists (pop : List Particle) : List ℚ :=
  pop.filterMap (fun p => p.dist.finValue)

/-- Sum of the importance weights of a population. -/
def weightSum (pop : List Particle) : ℚ :=
  (pop.map (fun p => p.weight)).sum

/-! ## C7: k-nearest-neighbour configuration check -/

/-- Modelled from the spec: the k-NN covariance method (spec section 4.3,
method 5) requires `1 < k_near < particle_count` and fails with a
`ConfigurationError` when `k_near` is out of that range. -/
def checkKNear (kNear npart : ℕ) : Except ABCError Unit :=
  if kNear ≤ 1 ∨ npart ≤ kNear then .error .configurationError else .ok ()

/-! ## C8: per-proposal recovery of evaluation failures -/

/-- Modelled from the spec: the DistanceEvaluator wraps the user's
simulation plus distance function into `parameters → scalar distance`
(spec section 2); the user function may raise, modelled as `Except`. -/
def DistanceFn : Type := List ℚ → Except ABCError ℚ

/-- Modelled from the spec: the distance recorded for one proposal: the
user function's value on success, infinite distance when it raised
(spec section 4.5: the failure is caught and the proposal is treated as
rejected rather than aborting the batch). -/
def trialDist (dfunc : DistanceFn) (params : List ℚ) : Dist :=
  match dfunc params with
  | .ok d => .fin d
  | .error _ => .inf

/-- Modelled from the spec: `ParallelDispatcher.evaluate_batch` (spec
section 4.5): apply the distance evaluator to every proposal, recovering
each failure locally as an infinite-distance rejection. -/
def evaluateBatch (dfunc : DistanceFn) (proposals : List (List ℚ)) :
    List (List ℚ × Dist) :=
  proposals.map (fun p => (p, trialDist dfunc p))

/-! ## C9: bounded resample-until-valid perturbation -/

/-- Modelled from the spec: `PerturbationKernel.perturb` draws proposals
from a stream `draws` (the underlying normal perturbation draws), rejects
any that fall outside the bounded prior support `support`, and re-draws,
bounded by the retry budget `retries`; exhausting the budget fails with
`ProposalExhausted` (spec section 4.4).  `i` is the index of the next
draw to examine. -/
def perturbAux (support : List ℚ → Bool) (draws : ℕ → List ℚ) :
    ℕ → ℕ → Except ABCError (List ℚ)
  | 0, _ => .error .proposalExhausted
  | retries + 1, i =>
    if support (draws i) then .ok (draws i)
    else perturbAux support draws retries (i + 1)

/-- Modelled from the spec: the perturbation entry point, starting at the
first draw with the full retry budget. -/
def perturb (support : List ℚ → Bool) (draws : ℕ → List ℚ)
    (maxRetry : ℕ) : Except ABCError (List ℚ) :=
  perturbAux support draws maxRetry 0

theorem perturbAux_spec (support : List ℚ → Bool) (draws : ℕ → List ℚ) :
    ∀ retries i,
      (∀ p, perturbAux support draws retries i = .ok p → support p = true) ∧
      ((∀ j, j < retries → support (draws (i + j)) = false) →
        perturbAux support draws retries i = .error .proposalExhausted) := by
  intro retries
  induction retries with
  | zero =>
    intro i
    refine ⟨fun p h => by simp [perturbAux] at h, fun _ => rfl⟩
  | succ r ih =>
    intro i
    constructor
    · intro p h
      by_cases hs : support (draws i) = true
      · simp [perturbAux, hs] at h
        rw [← h]; exact hs
      · simp [perturbAux, hs] at h
        exact ((ih (i + 1)).1 p h)
    · intro hall
      have h0 : support (draws i) = false := by
        have := hall 0 (Nat.succ_pos r)
        simpa using this
      have hrest : ∀ j, j < r → support (draws (i + 1 + j)) = false := by
        intro j hj
        have := hall (j + 1) (Nat.succ_lt_succ hj)
        have harith : i + (j + 1) = i + 1 + j := by omega
        rw [harith] at this
        exact this
      simp only [perturbAux, h0, if_false]
      exact (ih (i + 1)).2 hrest

/-! ## Controller run loop -/

/-- Modelled from the spec: the configuration surface of the sampler that
the claims exercise (spec section 6): particle count, iteration budget,
tolerance bounds (maximum and floor), the adaptive-schedule flag
`adapt_t` and its quantile `threshold`. -/
structure Config where
  npart : ℕ
  niter : ℕ
  tmax : ℚ
  tmin : ℚ
  adapt_t : Bool
  threshold : ℕ
  deriving DecidableEq, Repr

/-- Insert a rational into an already sorted list, keeping it sorted. -/
def sortedInsert (x : ℚ) : List ℚ → List ℚ
  | [] => [x]
  | y :: ys => if x ≤ y then x :: y :: ys else y :: sortedInsert x ys

/-- Ascending insertion sort on rationals. -/
def sortQ (xs : List ℚ) : List ℚ :=
  xs.foldr sortedInsert []

/-- Modelled from the spec: the q-th percentile (q in 0..100) of a list of
distances: the entry of the ascending sort at the q-th fractional index
(spec section 4.2; the spec fixes only that it is a percentile of the
accepted distances, not the interpolation rule). -/
def percentile (q : ℕ) (xs : List ℚ) : ℚ :=
  let s := sortQ xs
  s.getD (min (s.length - 1) (q * s.length / 100)) 0

/-- Modelled from the spec: the adaptive tolerance update (spec section
4.2): the percentile of the accepted distances, clipped to be at most the
current tolerance and at least the configured floor. -/
def adaptClip (floor p cur : ℚ) : ℚ :=
  max floor (min p cur)

/-- Modelled from the spec: the tolerance for iteration `t + 1`: the
adaptive quantile rule when `adapt_t` is enabled (taking precedence over
the fixed sequence), otherwise the precomputed fixed schedule
`fixedTol` (spec section 4.2). -/
def nextTolerance (cfg : Config) (fixedTol : ℕ → ℚ) (pop : List Particle)
    (cur : ℚ) (t : ℕ) : ℚ :=
  if cfg.adapt_t then adaptClip cfg.tmin (percentile cfg.threshold (popDists pop)) cur
  else fixedTol (t + 1)

/-- Modelled from the spec: one iteration's rejection-sampling loop (spec
section 4.1): repeatedly take the next candidate parameter vector from
the stream `cands`, evaluate its distance, accept it when the distance is
within `tol`, until `need` particles are accepted.  The total number of
draws is bounded by `fuel` (spec section 9: retry loops are bounded);
exhausting it yields `none` (proposal exhaustion). -/
def samplePopAux (cands : ℕ → List ℚ) (dfunc : DistanceFn) (tol : ℚ) :
    ℕ → ℕ → ℕ → Option (List (List ℚ × Dist))
  | _, _, 0 => some []
  | 0, _, _ + 1 => none
  | fuel + 1, i, need + 1 =>
    if (trialDist dfunc (cands i)).accepted tol then
      match samplePopAux cands dfunc tol fuel (i + 1) need with
      | none => none
      | some rest => some ((cands i, trialDist dfunc (cands i)) :: rest)
    else samplePopAux cands dfunc tol fuel (i + 1) (need + 1)

/-- Modelled from the spec: turn the accepted draws of one iteration into
a weighted population: each particle receives its raw importance weight
`rawW` divided by the total, so that weights are normalized (spec
section 3: weights sum to 1 after each iteration). -/
def mkPopulation (rawW : List ℚ → ℚ) (acc : List (List ℚ × Dist)) :
    List Particle :=
  acc.map (fun x =>
    { params := x.1,
      weight := rawW x.1 / (acc.map (fun y => rawW y.1)).sum,
      dist := x.2 })

/-- One record of the run's per-iteration output: the iteration index,
the tolerance used at that iteration, and the accepted weighted
population. -/
structure IterRecord where
  t : ℕ
  tol : ℚ
  pop : List Particle
  deriving DecidableEq, Repr

/-- Modelled from the spec: the Controller's iteration loop (spec sections
4.1 and 2): at iteration `t` with tolerance `tol`, produce a full
accepted population, record it, stop if the tolerance has reached the
configured floor, otherwise continue with the next tolerance; at most
`r` further iterations are run (the remaining budget).  The Boolean is
`true` when the run aborted because an iteration could not fill its
population within the draw budget (proposal exhaustion is fatal for the
iteration, spec section 7). -/
def runAux (cfg : Config) (cands : ℕ → ℕ → List ℚ) (dfunc : DistanceFn)
    (rawW : List ℚ → ℚ) (fixedTol : ℕ → ℚ) (fuel : ℕ) :
    ℕ → ℕ → ℚ → List IterRecord × Bool
  | _, 0, _ => ([], false)
  | t, r + 1, tol =>
    match samplePopAux (cands t) dfunc tol fuel 0 cfg.npart with
    | none => ([], true)
    | some acc =>
      if tol ≤ cfg.tmin then ([⟨t, tol, mkPopulation rawW acc⟩], false)
      else
        (⟨t, tol, mkPopulation rawW acc⟩ ::
            (runAux cfg cands dfunc rawW fixedTol fuel (t + 1) r
              (nextTolerance cfg fixedTol (mkPopulation rawW acc) tol t)).1,
          (runAux cfg cands dfunc rawW fixedTol fuel (t + 1) r
            (nextTolerance cfg fixedTol (mkPopulation rawW acc) tol t)).2)

/-- Modelled from the spec: the full run: start at iteration 0 with the
configured maximum tolerance and the whole iteration budget (spec
sections 4.1, 4.2 and the notebook's `sampler.sample`). -/
def run (cfg : Config) (cands : ℕ → ℕ → List ℚ) (dfunc : DistanceFn)
    (rawW : List ℚ → ℚ) (fixedTol : ℕ → ℚ) (fuel : ℕ) :
    List IterRecord × Bool :=
  runAux cfg cands dfunc rawW fixedTol fuel 0 cfg.niter cfg.tmax

/-! ## Helper lemmas about the run loop -/

theorem samplePopAux_spec (cands : ℕ → List ℚ) (dfunc : DistanceFn) (tol : ℚ) :
    ∀ fuel i need l, samplePopAux cands dfunc tol fuel i need = some l →
      l.length = need ∧ ∀ x ∈ l, x.2.accepted tol = true := by
  intro fuel
  induction fuel with
  | zero =>
    intro i need l h
    cases need with
    | zero =>
      simp only [samplePopAux, Option.some.injEq] at h
      subst h; simp
    | succ n => simp [samplePopAux] at h
  | succ f ih =>
    intro i need l h
    cases need with
    | zero =>
      simp only [samplePopAux, Option.some.injEq] at h
      subst h; simp
    | succ n =>
      rw [samplePopAux] at h
      by_cases hacc : (trialDist dfunc (cands i)).accepted tol = true
      · rw [if_pos hacc] at h
        cases hrec : samplePopAux cands dfunc tol f (i + 1) n with
        | none => rw [hrec] at h; exact absurd h (by simp)
        | some rest =>
          rw [hrec] at h
          obtain ⟨hlen, hall⟩ := ih (i + 1) n rest hrec
          simp only [Option.some.injEq] at h
          subst h
          refine ⟨by simp [hlen], ?_⟩
          intro x hx
          rcases List.mem_cons.mp hx with h1 | h2
          · subst h1; exact hacc
          · exact hall x h2
      · rw [if_neg hacc] at h
        exact ih (i + 1) (n + 1) l h

theorem mkPopulation_length (rawW : List ℚ → ℚ) (acc : List (List ℚ × Dist)) :
    (mkPopulation rawW acc).length = acc.length := by
  simp [mkPopulation]

theorem mkPopulation_mem (rawW : List ℚ → ℚ) (acc : List (List ℚ × Dist))
    (p : Particle) (hp : p ∈ mkPopulation rawW acc) :
    ∃ x ∈ acc, p.params = x.1 ∧ p.dist = x.2 := by
  simp only [mkPopulation, List.mem_map] at hp
  obtain ⟨x, hx, hEq⟩ := hp
  exact ⟨x, hx, by rw [← hEq], by rw [← hEq]⟩

theorem sum_map_div {α : Type} (l : List α) (f : α → ℚ) (c : ℚ) :
    (l.map (fun x => f x / c)).sum = (l.map f).sum / c := by
  induction l with
  | nil => simp
  | cons a l ih => simp [ih, div_add_div_same]

theorem mkPopulation_weightSum (rawW : List ℚ → ℚ)
    (acc : List (List ℚ × Dist)) (hne : acc ≠ [])
    (hw : ∀ x, 0 < rawW x) :
    weightSum (mkPopulation rawW acc) = 1 := by
  have hpos : 0 < (acc.map (fun y => rawW y.1)).sum := by
    apply List.sum_pos
    · intro a ha
      obtain ⟨x, _, hEq⟩ := List.mem_map.mp ha
      rw [← hEq]; exact hw x.1
    · simpa using hne
  have hmap : (mkPopulation rawW acc).map (fun p => p.weight) =
      acc.map (fun x => rawW x.1 / (acc.map (fun y => rawW y.1)).sum) := by
    simp [mkPopulation]
  rw [weightSum, hmap,
    sum_map_div acc (fun x => rawW x.1) ((acc.map (fun y => rawW y.1)).sum)]
  exact div_self (ne_of_gt hpos)

theorem adaptClip_le (floor p cur : ℚ) (h : floor ≤ cur) :
    adaptClip floor p cur ≤ cur :=
  max_le h (min_le_right p cur)

theorem runAux_inv (cfg : Config) (cands : ℕ → ℕ → List ℚ) (dfunc : DistanceFn)
    (rawW : List ℚ → ℚ) (fixedTol : ℕ → ℚ) (fuel : ℕ) :
    ∀ r t tol rc, rc ∈ (runAux cfg cands dfunc rawW fixedTol fuel t r tol).1 →
      rc.pop.length = cfg.npart ∧
      (∀ p ∈ rc.pop, p.dist.accepted rc.tol = true) ∧
      (0 < cfg.npart → (∀ x, 0 < rawW x) → weightSum rc.pop = 1) := by
  intro r
  induction r with
  | zero => intro t tol rc h; simp [runAux] at h
  | succ r ih =>
    intro t tol rc h
    rw [runAux] at h
    cases hs : samplePopAux (cands t) dfunc tol fuel 0 cfg.npart with
    | none => rw [hs] at h; simp at h
    | some acc =>
      rw [hs] at h
      dsimp only at h
      obtain ⟨hlen, hall⟩ := samplePopAux_spec (cands t) dfunc tol fuel 0 cfg.npart acc hs
      have hhead : (mkPopulation rawW acc).length = cfg.npart ∧
          (∀ p ∈ mkPopulation rawW acc, p.dist.accepted tol = true) ∧
          (0 < cfg.npart → (∀ x, 0 < rawW x) →
            weightSum (mkPopulation rawW acc) = 1) := by
        refine ⟨by rw [mkPopulation_length, hlen], ?_, ?_⟩
        · intro p hp
          obtain ⟨x, hx, _, hd⟩ := mkPopulation_mem rawW acc p hp
          rw [hd]; exact hall x hx
        · intro hN hw
          have hne : acc ≠ [] := by
            intro hnil; rw [hnil] at hlen; simp at hlen; omega
          exact mkPopulation_weightSum rawW acc hne hw
      by_cases htol : tol ≤ cfg.tmin
      · rw [if_pos htol] at h
        simp only [List.mem_singleton] at h
        subst h
        exact hhead
      · rw [if_neg htol] at h
        simp only [List.mem_cons] at h
        rcases h with h | h
        · subst h; exact hhead
        · exact ih _ _ rc h

theorem runAux_head (cfg : Config) (cands : ℕ → ℕ → List ℚ) (dfunc : DistanceFn)
    (rawW : List ℚ → ℚ) (fixedTol : ℕ → ℚ) (fuel : ℕ) :
    ∀ r t tol rc rest,
      (runAux cfg cands dfunc rawW fixedTol fuel t r tol).1 = rc :: rest →
      rc.tol = tol ∧ rc.t = t := by
  intro r t tol rc rest h
  cases r with
  | zero => simp [runAux] at h
  | succ r =>
    rw [runAux] at h
    cases hs : samplePopAux (cands t) dfunc tol fuel 0 cfg.npart with
    | none => rw [hs] at h; simp at h
    | some acc =>
      rw [hs] at h
      dsimp only at h
      by_cases htol : tol ≤ cfg.tmin
      · rw [if_pos htol] at h
        simp only [List.cons.injEq] at h
        rw [← h.1]
        exact ⟨rfl, rfl⟩
      · rw [if_neg htol] at h
        simp only [List.cons.injEq] at h
        rw [← h.1]
        exact ⟨rfl, rfl⟩

theorem runAux_length_le (cfg : Config) (cands : ℕ → ℕ → List ℚ)
    (dfunc : DistanceFn) (rawW : List ℚ → ℚ) (fixedTol : ℕ → ℚ) (fuel : ℕ) :
    ∀ r t tol, (runAux cfg cands dfunc rawW fixedTol fuel t r tol).1.length ≤ r := by
  intro r
  induction r with
  | zero => intro t tol; simp [runAux]
  | succ r ih =>
    intro t tol
    rw [runAux]
    cases hs : samplePopAux (cands t) dfunc tol fuel 0 cfg.npart with
    | none => simp
    | some acc =>
      dsimp only
      by_cases htol : tol ≤ cfg.tmin
      · rw [if_pos htol]; simp
      · rw [if_neg htol]
        simp only [List.length_cons]
        exact Nat.succ_le_succ (ih _ _)

theorem runAux_floor (cfg : Config) (cands : ℕ → ℕ → List ℚ)
    (dfunc : DistanceFn) (rawW : List ℚ → ℚ) (fixedTol : ℕ → ℚ) (fuel : ℕ) :
    ∀ r t tol i,
      i + 1 < (runAux cfg cands dfunc rawW fixedTol fuel t r tol).1.length →
      cfg.tmin <
        ((runAux cfg cands dfunc rawW fixedTol fuel t r tol).1.getD i
          ⟨0, 0, []⟩).tol := by
  intro r
  induction r with
  | zero => intro t tol i h; simp [runAux] at h
  | succ r ih =>
    intro t tol i h
    rw [runAux] at h ⊢
    cases hs : samplePopAux (cands t) dfunc tol fuel 0 cfg.npart with
    | none => rw [hs] at h; simp at h
    | some acc =>
      rw [hs] at h
      dsimp only at h ⊢
      by_cases htol : tol ≤ cfg.tmin
      · rw [if_pos htol] at h
        simp at h
      · rw [if_neg htol] at h ⊢
        cases i with
        | zero => simpa using lt_of_not_le htol
        | succ j =>
          simp only [List.getD_cons_succ]
          apply ih
          simp only [List.length_cons] at h
          omega

theorem runAux_full (cfg : Config) (cands : ℕ → ℕ → List ℚ)
    (dfunc : DistanceFn) (rawW : List ℚ → ℚ) (fixedTol : ℕ → ℚ) (fuel : ℕ) :
    ∀ r t tol,
      (runAux cfg cands dfunc rawW fixedTol fuel t r tol).2 = false →
      (∀ rc ∈ (runAux cfg cands dfunc rawW fixedTol fuel t r tol).1,
        cfg.tmin < rc.tol) →
      (runAux cfg cands dfunc rawW fixedTol fuel t r tol).1.length = r := by
  intro r
  induction r with
  | zero => intro t tol _ _; simp [runAux]
  | succ r ih =>
    intro t tol hf hall
    rw [runAux] at hf hall ⊢
    cases hs : samplePopAux (cands t) dfunc tol fuel 0 cfg.npart with
    | none => rw [hs] at hf; simp at hf
    | some acc =>
      rw [hs] at hf hall
      dsimp only at hf hall ⊢
      by_cases htol : tol ≤ cfg.tmin
      · rw [if_pos htol] at hall
        exact absurd (hall ⟨t, tol, mkPopulation rawW acc⟩ (by simp))
          (not_lt.mpr htol)
      · rw [if_neg htol] at hf hall ⊢
        simp only [List.length_cons]
        have hrest := ih (t + 1)
          (nextTolerance cfg fixedTol (mkPopulation rawW acc) tol t)
          (by simpa using hf)
          (fun rc hrc => hall rc (List.mem_cons_of_mem _ hrc))
        omega

theorem runAux_adaptive (cfg : Config) (cands : ℕ → ℕ → List ℚ)
    (dfunc : DistanceFn) (rawW : List ℚ → ℚ) (fixedTol : ℕ → ℚ) (fuel : ℕ)
    (hA : cfg.adapt_t = true) :
    ∀ r t tol i,
      i + 1 < (runAux cfg cands dfunc rawW fixedTol fuel t r tol).1.length →
      ((runAux cfg cands dfunc rawW fixedTol fuel t r tol).1.getD (i + 1)
          ⟨0, 0, []⟩).tol =
        adaptClip cfg.tmin
          (percentile cfg.threshold
            (popDists
              ((runAux cfg cands dfunc rawW fixedTol fuel t r tol).1.getD i
                ⟨0, 0, []⟩).pop))
          ((runAux cfg cands dfunc rawW fixedTol fuel t r tol).1.getD i
            ⟨0, 0, []⟩).tol ∧
      ((runAux cfg cands dfunc rawW fixedTol fuel t r tol).1.getD (i + 1)
          ⟨0, 0, []⟩).tol ≤
        ((runAux cfg cands dfunc rawW fixedTol fuel t r tol).1.getD i
          ⟨0, 0, []⟩).tol := by
  intro r
  induction r with
  | zero => intro t tol i h; simp [runAux] at h
  | succ r ih =>
    intro t tol i h
    rw [runAux] at h ⊢
    cases hs : samplePopAux (cands t) dfunc tol fuel 0 cfg.npart with
    | none => rw [hs] at h; simp at h
    | some acc =>
      rw [hs] at h
      dsimp only at h ⊢
      by_cases htol : tol ≤ cfg.tmin
      · rw [if_pos htol] at h
        simp at h
      · rw [if_neg htol] at h ⊢
        cases i with
        | zero =>
          simp only [List.length_cons] at h
          have hlen : 0 <
              (runAux cfg cands dfunc rawW fixedTol fuel (t + 1) r
                (nextTolerance cfg fixedTol (mkPopulation rawW acc) tol t)).1.length := by
            omega
          cases hrest : (runAux cfg cands dfunc rawW fixedTol fuel (t + 1) r
              (nextTolerance cfg fixedTol (mkPopulation rawW acc) tol t)).1 with
          | nil => rw [hrest] at hlen; simp at hlen
          | cons rc1 rest1 =>
            have hh := runAux_head cfg cands dfunc rawW fixedTol fuel r (t + 1)
              (nextTolerance cfg fixedTol (mkPopulation rawW acc) tol t) rc1 rest1 hrest
            have hnext : nextTolerance cfg fixedTol (mkPopulation rawW acc) tol t =
                adaptClip cfg.tmin
                  (percentile cfg.threshold (popDists (mkPopulation rawW acc))) tol := by
              simp [nextTolerance, hA]
            simp only [hrest, List.getD_cons_succ, List.getD_cons_zero]
            constructor
            · rw [hh.1, hnext]
            · rw [hh.1, hnext]
              exact adaptClip_le _ _ _ (le_of_lt (lt_of_not_le htol))
        | succ j =>
          simp only [List.getD_cons_succ]
          apply ih
          simp only [List.length_cons] at h
          omega

/-! ## Fixed tolerance schedule (C4) -/

/-- Modelled from the spec: the shape keyword of the fixed decreasing
schedule, one of {exponential, linear, logarithmic, constant} (spec
section 4.2). -/
inductive TolShape where
  | texp : TolShape
  | tlin : TolShape
  | tlog : TolShape
  | tconst : TolShape

/-- Modelled from the spec: the tolerance at iteration `t` of the fixed
schedule (spec section 4.2): for the exponential shape,
`tolerance[t] = max * (min/max) ^ (t / (budget - 1))`.  The spec gives a
formula only for the exponential shape; the linear shape is the evenly
spaced interpolation from `max` to `min`, the logarithmic shape applies
the logarithm to the evenly spaced interpolation from `exp max` to
`exp min` (so the sequence decreases logarithmically from `max` to
`min`), and the constant shape keeps `max`. -/
noncomputable def fixedTolAt : TolShape → ℝ → ℝ → ℕ → ℕ → ℝ
  | .texp, tmax, tmin, budget, t =>
    tmax * (tmin / tmax) ^ ((t : ℝ) / ((budget : ℝ) - 1))
  | .tlin, tmax, tmin, budget, t =>
    tmax + (t : ℝ) * ((tmin - tmax) / ((budget : ℝ) - 1))
  | .tlog, tmax, tmin, budget, t =>
    Real.log
      (Real.exp tmax +
        (t : ℝ) * ((Real.exp tmin - Real.exp tmax) / ((budget : ℝ) - 1)))
  | .tconst, tmax, _, _, _ => tmax

/-- Modelled from the spec: the full precomputed tolerance sequence of the
fixed schedule, one entry per budgeted iteration (spec section 4.2). -/
noncomputable def fixedSchedule (s : TolShape) (tmax tmin : ℝ) (budget : ℕ) :
    List ℝ :=
  (List.range budget).map (fixedTolAt s tmax tmin budget)

theorem fixedSchedule_length (s : TolShape) (tmax tmin : ℝ) (budget : ℕ) :
    (fixedSchedule s tmax tmin budget).length = budget := by
  simp [fixedSchedule]

theorem fixedSchedule_getD (s : TolShape) (tmax tmin : ℝ) (budget t : ℕ)
    (ht : t < budget) :
    (fixedSchedule s tmax tmin budget).getD t 0 =
      fixedTolAt s tmax tmin budget t := by
  rw [fixedSchedule, List.getD_eq_getElem?_getD, List.getElem?_map,
    List.getElem?_range ht]
  rfl

theorem fixedTolAt_antitone (s : TolShape) (tmax tmin : ℝ) (budget : ℕ)
    (h0 : 0 < tmin) (h1 : tmin ≤ tmax) (hB : 2 ≤ budget) (i : ℕ)
    (hi : i + 1 < budget) :
    fixedTolAt s tmax tmin budget (i + 1) ≤ fixedTolAt s tmax tmin budget i := by
  have htmax : 0 < tmax := lt_of_lt_of_le h0 h1
  have hden : (0 : ℝ) < (budget : ℝ) - 1 := by
    have : (2 : ℝ) ≤ (budget : ℝ) := by exact_mod_cast hB
    linarith
  cases s with
  | texp =>
    have hb0 : 0 < tmin / tmax := div_pos h0 htmax
    have hb1 : tmin / tmax ≤ 1 := div_le_one_of_le₀ h1 (le_of_lt htmax)
    have hexp : ((i : ℕ) : ℝ) / ((budget : ℝ) - 1) ≤
        (((i + 1 : ℕ) : ℕ) : ℝ) / ((budget : ℝ) - 1) := by
      apply div_le_div_of_nonneg_right ?_ (le_of_lt hden)
      push_cast
      linarith
    exact mul_le_mul_of_nonneg_left
      (Real.rpow_le_rpow_of_exponent_ge hb0 hb1 hexp) (le_of_lt htmax)
  | tlin =>
    have hd : (tmin - tmax) / ((budget : ℝ) - 1) ≤ 0 :=
      div_nonpos_of_nonpos_of_nonneg (by linarith) (le_of_lt hden)
    show tmax + ((i + 1 : ℕ) : ℝ) * ((tmin - tmax) / ((budget : ℝ) - 1)) ≤
      tmax + ((i : ℕ) : ℝ) * ((tmin - tmax) / ((budget : ℝ) - 1))
    push_cast
    nlinarith [hd]
  | tlog =>
    have hexp_le : Real.exp tmin ≤ Real.exp tmax := Real.exp_le_exp.mpr h1
    have hd : (Real.exp tmin - Real.exp tmax) / ((budget : ℝ) - 1) ≤ 0 :=
      div_nonpos_of_nonpos_of_nonneg (by linarith) (le_of_lt hden)
    have hBi : ((i : ℝ) + 1) ≤ (budget : ℝ) - 1 := by
      have h2 : (i + 2 : ℕ) ≤ budget := hi
      have h3 : ((i : ℝ) + 2) ≤ (budget : ℝ) := by exact_mod_cast h2
      linarith
    have hstep : ((budget : ℝ) - 1) *
          ((Real.exp tmin - Real.exp tmax) / ((budget : ℝ) - 1)) ≤
        ((i : ℝ) + 1) *
          ((Real.exp tmin - Real.exp tmax) / ((budget : ℝ) - 1)) :=
      mul_le_mul_of_nonpos_right hBi hd
    have hmul : ((budget : ℝ) - 1) *
          ((Real.exp tmin - Real.exp tmax) / ((budget : ℝ) - 1)) =
        Real.exp tmin - Real.exp tmax := by
      field_simp
    rw [hmul] at hstep
    have hpos : 0 < Real.exp tmax +
        ((i : ℝ) + 1) * ((Real.exp tmin - Real.exp tmax) / ((budget : ℝ) - 1)) := by
      have := Real.exp_pos tmin
      linarith
    have hle : Real.exp tmax +
          ((i : ℝ) + 1) * ((Real.exp tmin - Real.exp tmax) / ((budget : ℝ) - 1)) ≤
        Real.exp tmax +
          (i : ℝ) * ((Real.exp tmin - Real.exp tmax) / ((budget : ℝ) - 1)) := by
      nlinarith [hd]
    show Real.log
        (Real.exp tmax +
          ((i + 1 : ℕ) : ℝ) * ((Real.exp tmin - Real.exp tmax) / ((budget : ℝ) - 1))) ≤
      Real.log
        (Real.exp tmax +
          ((i : ℕ) : ℝ) * ((Real.exp tmin - Real.exp tmax) / ((budget : ℝ) - 1)))
    push_cast
    exact Real.log_le_log hpos hle
  | tconst => exact le_refl _

theorem fixedTolAt_strict_exp (tmax tmin : ℝ) (budget : ℕ)
    (h0 : 0 < tmin) (h1 : tmin < tmax) (hB : 2 ≤ budget) (i : ℕ) :
    fixedTolAt .texp tmax tmin budget (i + 1) <
      fixedTolAt .texp tmax tmin budget i := by
  have htmax : 0 < tmax := lt_trans h0 h1
  have hden : (0 : ℝ) < (budget : ℝ) - 1 := by
    have : (2 : ℝ) ≤ (budget : ℝ) := by exact_mod_cast hB
    linarith
  have hb0 : 0 < tmin / tmax := div_pos h0 htmax
  have hb1 : tmin / tmax < 1 := (div_lt_one htmax).mpr h1
  have hexp : ((i : ℕ) : ℝ) / ((budget : ℝ) - 1) <
      (((i + 1 : ℕ) : ℕ) : ℝ) / ((budget : ℝ) - 1) := by
    apply (div_lt_div_iff_of_pos_right hden).mpr
    push_cast
    linarith
  exact mul_lt_mul_of_pos_left
    (Real.rpow_lt_rpow_of_exponent_gt hb0 hb1 hexp) htmax

/-! ## CheckpointStore (C6) -/

/-- Modelled from the spec: the checkpoint record (spec sections 3 and 6):
the iteration index, the tolerance value, and the full particle
population. -/
structure Checkpoint where
  iter : ℕ
  tol : ℚ
  pop : List Particle
  deriving DecidableEq, Repr

/-- Read back a natural number stored as a rational. -/
def ratToNat (q : ℚ) : ℕ := q.num.toNat

/-- Serialize one distance value: a finiteness tag followed by the value. -/
def encDist : Dist → List ℚ
  | .fin q => [1, q]
  | .inf => [0, 0]

/-- Parse one distance value, returning it with the unread remainder. -/
def decDist : List ℚ → Option (Dist × List ℚ)
  | tag :: v :: rest => some (if tag = 1 then Dist.fin v else Dist.inf, rest)
  | _ => none

/-- Read `n` rationals off the front of the stream. -/
def readN : ℕ → List ℚ → Option (List ℚ × List ℚ)
  | 0, xs => some ([], xs)
  | _ + 1, [] => none
  | n + 1, x :: xs =>
    match readN n xs with
    | none => none
    | some (ys, rest) => some (x :: ys, rest)

/-- Modelled from the spec: the serialized form of one particle inside a
checkpoint record: parameter-vector length, the parameters, the weight,
the distance (spec section 6: `particle_count × (parameter vector,
weight, distance)` in a deterministic serialization). -/
def encParticle (p : Particle) : List ℚ :=
  (p.params.length : ℚ) :: p.params ++ p.weight :: encDist p.dist

/-- Parse one particle, returning it with the unread remainder. -/
def decParticle : List ℚ → Option (Particle × List ℚ)
  | [] => none
  | n :: rest =>
    match readN (ratToNat n) rest with
    | none => none
    | some (ps, rest1) =>
      match rest1 with
      | [] => none
      | w :: rest2 =>
        match decDist rest2 with
        | none => none
        | some (d, rest3) => some (⟨ps, w, d⟩, rest3)

/-- Serialize a particle population, particle by particle. -/
def encParticles (l : List Particle) : List ℚ :=
  l.foldr (fun p acc => encParticle p ++ acc) []

/-- Parse `n` particles, returning them with the unread remainder. -/
def decParticles : ℕ → List ℚ → Option (List Particle × List ℚ)
  | 0, xs => some ([], xs)
  | n + 1, xs =>
    match decParticle xs with
    | none => none
    | some (p, rest) =>
      match decParticles n rest with
      | none => none
      | some (ps, rest1) => some (p :: ps, rest1)

/-- Modelled from the spec: `CheckpointStore.save` (spec sections 4.6 and
6): serialize the iteration index, the tolerance, the particle count and
the particles into one deterministic flat record. -/
def saveCheckpoint (c : Checkpoint) : List ℚ :=
  (c.iter : ℚ) :: c.tol :: (c.pop.length : ℚ) :: encParticles c.pop

/-- Modelled from the spec: `CheckpointStore.load` (spec section 4.6):
parse a stored record back into a checkpoint, failing (`none`) on a
corrupt record. -/
def loadCheckpoint : List ℚ → Option Checkpoint
  | it :: tol :: n :: rest =>
    match decParticles (ratToNat n) rest with
    | none => none
    | some (ps, rest1) =>
      if rest1 = [] then some ⟨ratToNat it, tol, ps⟩ else none
  | _ => none

theorem ratToNat_natCast (n : ℕ) : ratToNat (n : ℚ) = n := by
  simp [ratToNat]

theorem readN_append (ys rest : List ℚ) :
    readN ys.length (ys ++ rest) = some (ys, rest) := by
  induction ys with
  | nil => rfl
  | cons y ys ih => simp [readN, ih]

theorem decDist_enc (d : Dist) (rest : List ℚ) :
    decDist (encDist d ++ rest) = some (d, rest) := by
  cases d with
  | fin q => simp [encDist, decDist]
  | inf => norm_num [encDist, decDist]

theorem decParticle_enc (p : Particle) (rest : List ℚ) :
    decParticle (encParticle p ++ rest) = some (p, rest) := by
  have hshape : encParticle p ++ rest =
      (p.params.length : ℚ) :: (p.params ++ (p.weight :: (encDist p.dist ++ rest))) := by
    simp [encParticle]
  rw [hshape, decParticle, ratToNat_natCast, readN_append]
  dsimp only
  rw [decDist_enc]

theorem decParticles_enc (l : List Particle) (rest : List ℚ) :
    decParticles l.length (encParticles l ++ rest) = some (l, rest) := by
  induction l generalizing rest with
  | nil => rfl
  | cons p l ih =>
    have hshape : encParticles (p :: l) ++ rest =
        encParticle p ++ (encParticles l ++ rest) := by
      simp [encParticles]
    rw [List.length_cons, hshape, decParticles, decParticle_enc]
    dsimp only
    rw [ih]

/-! ## Concrete fixtures used to instantiate the theorems -/

/-- A small concrete configuration: 1 particle, 2 iterations, tolerance
bounds (1, 0), adaptive schedule with the default quantile. -/
def exCfg : Config := ⟨1, 2, 1, 0, true, 75⟩

/-- A concrete candidate stream: every proposal is the parameter vector
`[0]`. -/
def exCands : ℕ → ℕ → List ℚ := fun _ _ => [0]

/-- A concrete distance evaluator that always succeeds with distance 0. -/
def exDfunc : DistanceFn := fun _ => .ok 0

/-- A concrete distance evaluator that always raises. -/
def exFailDfunc : DistanceFn := fun _ => .error .evaluationFailure

/-- A concrete raw importance weight: constantly 1. -/
def exRawW : List ℚ → ℚ := fun _ => 1

/-- A concrete fixed tolerance sequence: constantly 1. -/
def exFixed : ℕ → ℚ := fun _ => 1

/-- The population the concrete fixture produces at every iteration. -/
def exPop : List Particle := [⟨[0], 1, Dist.fin 0⟩]

/-- A prior support that rejects every proposal, used to exercise
proposal exhaustion. -/
def exRejectSupport : List ℚ → Bool := fun _ => false

theorem exRun_eval : run exCfg exCands exDfunc exRawW exFixed 2 =
    ([⟨0, 1, exPop⟩, ⟨1, 0, exPop⟩], false) := by
  have hmk : mkPopulation exRawW [([0], Dist.fin 0)] = exPop := by
    simp [mkPopulation, exRawW, exPop]
  have h0 : samplePopAux (exCands 0) exDfunc 1 2 0 1 =
      some [([0], Dist.fin 0)] := by decide
  have h1 : samplePopAux (exCands 1) exDfunc 0 2 0 1 =
      some [([0], Dist.fin 0)] := by decide
  have hnext : nextTolerance exCfg exFixed exPop 1 0 = 0 := by decide
  show runAux exCfg exCands exDfunc exRawW exFixed 2 0 2 1 = _
  rw [runAux]
  rw [show exCfg.npart = 1 from rfl, h0]
  dsimp only
  rw [if_neg (by decide), hmk, hnext]
  rw [runAux]
  rw [show exCfg.npart = 1 from rfl, h1]
  dsimp only
  rw [if_pos (by decide), hmk]

/-! ## Claim theorems -/

/-- Claim C1: for every iteration record produced by the Controller's run
loop, the population returned for that iteration contains exactly
`particle_count` accepted particles, and every accepted particle in it
has distance at most the tolerance under which it was accepted. -/
theorem abc_c1_population_invariant (cfg : Config) (cands : ℕ → ℕ → List ℚ)
    (dfunc : DistanceFn) (rawW : List ℚ → ℚ) (fixedTol : ℕ → ℚ) (fuel : ℕ)
    (rc : IterRecord)
    (hmem : rc ∈ (run cfg cands dfunc rawW fixedTol fuel).1) :
    rc.pop.length = cfg.npart ∧ ∀ p ∈ rc.pop, p.dist.accepted rc.tol = true :=
  ⟨(runAux_inv cfg cands dfunc rawW fixedTol fuel cfg.niter 0 cfg.tmax rc hmem).1,
   (runAux_inv cfg cands dfunc rawW fixedTol fuel cfg.niter 0 cfg.tmax rc hmem).2.1⟩

theorem abc_c1_witness :
    (⟨0, 1, exPop⟩ : IterRecord) ∈ (run exCfg exCands exDfunc exRawW exFixed 2).1 ∧
    ((⟨0, 1, exPop⟩ : IterRecord).pop.length = exCfg.npart ∧
      ∀ p ∈ (⟨0, 1, exPop⟩ : IterRecord).pop,
        p.dist.accepted (⟨0, 1, exPop⟩ : IterRecord).tol = true) :=
  ⟨by rw [exRun_eval]; decide,
   abc_c1_population_invariant exCfg exCands exDfunc exRawW exFixed 2 _
     (by rw [exRun_eval]; decide)⟩

/-- Claim C2: after every completed iteration, the importance weights of
the returned population sum to 1 (for any positive raw weighting and a
positive particle count), and all distances in the population are
finite. -/
theorem abc_c2_weights_normalized (cfg : Config) (cands : ℕ → ℕ → List ℚ)
    (dfunc : DistanceFn) (rawW : List ℚ → ℚ) (fixedTol : ℕ → ℚ) (fuel : ℕ)
    (hN : 0 < cfg.npart) (hw : ∀ x, 0 < rawW x) (rc : IterRecord)
    (hmem : rc ∈ (run cfg cands dfunc rawW fixedTol fuel).1) :
    weightSum rc.pop = 1 ∧ ∀ p ∈ rc.pop, p.dist ≠ Dist.inf := by
  have h := runAux_inv cfg cands dfunc rawW fixedTol fuel cfg.niter 0 cfg.tmax rc hmem
  refine ⟨h.2.2 hN hw, ?_⟩
  intro p hp hinf
  have hacc := h.2.1 p hp
  rw [hinf] at hacc
  exact absurd hacc (by simp [Dist.accepted])

theorem abc_c2_witness :
    0 < exCfg.npart ∧ (∀ x, 0 < exRawW x) ∧
    (⟨0, 1, exPop⟩ : IterRecord) ∈ (run exCfg exCands exDfunc exRawW exFixed 2).1 ∧
    (weightSum (⟨0, 1, exPop⟩ : IterRecord).pop = 1 ∧
      ∀ p ∈ (⟨0, 1, exPop⟩ : IterRecord).pop, p.dist ≠ Dist.inf) :=
  ⟨by decide, fun x => by norm_num [exRawW], by rw [exRun_eval]; decide,
   abc_c2_weights_normalized exCfg exCands exDfunc exRawW exFixed 2
     (by decide) (fun x => by norm_num [exRawW]) _ (by rw [exRun_eval]; decide)⟩

/-- Claim C3: when the adaptive schedule is enabled, the tolerance of
each later iteration equals the configured percentile of the previous
iteration's accepted distances, clipped to be at most the previous
tolerance and at least the configured floor; consequently the adaptive
schedule never produces an increasing tolerance step. -/
theorem abc_c3_adaptive_tolerance (cfg : Config) (cands : ℕ → ℕ → List ℚ)
    (dfunc : DistanceFn) (rawW : List ℚ → ℚ) (fixedTol : ℕ → ℚ) (fuel : ℕ)
    (hA : cfg.adapt_t = true) (i : ℕ)
    (hi : i + 1 < (run cfg cands dfunc rawW fixedTol fuel).1.length) :
    ((run cfg cands dfunc rawW fixedTol fuel).1.getD (i + 1) ⟨0, 0, []⟩).tol =
      adaptClip cfg.tmin
        (percentile cfg.threshold
          (popDists
            ((run cfg cands dfunc rawW fixedTol fuel).1.getD i ⟨0, 0, []⟩).pop))
        (((run cfg cands dfunc rawW fixedTol fuel).1.getD i ⟨0, 0, []⟩).tol) ∧
    ((run cfg cands dfunc rawW fixedTol fuel).1.getD (i + 1) ⟨0, 0, []⟩).tol ≤
      ((run cfg cands dfunc rawW fixedTol fuel).1.getD i ⟨0, 0, []⟩).tol :=
  runAux_adaptive cfg cands dfunc rawW fixedTol fuel hA cfg.niter 0 cfg.tmax i hi

theorem abc_c3_witness :
    exCfg.adapt_t = true ∧
    0 + 1 < (run exCfg exCands exDfunc exRawW exFixed 2).1.length ∧
    (((run exCfg exCands exDfunc exRawW exFixed 2).1.getD (0 + 1) ⟨0, 0, []⟩).tol =
        adaptClip exCfg.tmin
          (percentile exCfg.threshold
            (popDists
              ((run exCfg exCands exDfunc exRawW exFixed 2).1.getD 0 ⟨0, 0, []⟩).pop))
          (((run exCfg exCands exDfunc exRawW exFixed 2).1.getD 0 ⟨0, 0, []⟩).tol) ∧
      ((run exCfg exCands exDfunc exRawW exFixed 2).1.getD (0 + 1) ⟨0, 0, []⟩).tol ≤
        ((run exCfg exCands exDfunc exRawW exFixed 2).1.getD 0 ⟨0, 0, []⟩).tol) :=
  ⟨rfl, by rw [exRun_eval]; decide,
   abc_c3_adaptive_tolerance exCfg exCands exDfunc exRawW exFixed 2 rfl 0
     (by rw [exRun_eval]; decide)⟩

/-- Claim C4: the fixed-schedule tolerance sequence is precomputed
analytically from the (max, min) bounds and the iteration budget
according to the selected shape: it has length equal to the budget, the
exponential shape's entry at `t` is
`max * (min/max) ^ (t / (budget - 1))`, every shape (exponential,
linear, logarithmic, constant) is non-increasing along the sequence, and
the exponential shape is strictly decreasing whenever `min < max`. -/
theorem abc_c4_fixed_schedule (tmax tmin : ℝ) (budget : ℕ)
    (h0 : 0 < tmin) (h1 : tmin ≤ tmax) (hB : 2 ≤ budget) :
    (∀ s, (fixedSchedule s tmax tmin budget).length = budget) ∧
    (∀ t, t < budget → (fixedSchedule .texp tmax tmin budget).getD t 0 =
      tmax * (tmin / tmax) ^ ((t : ℝ) / ((budget : ℝ) - 1))) ∧
    (∀ s i, i + 1 < budget → fixedTolAt s tmax tmin budget (i + 1) ≤
      fixedTolAt s tmax tmin budget i) ∧
    (tmin < tmax → ∀ i, fixedTolAt .texp tmax tmin budget (i + 1) <
      fixedTolAt .texp tmax tmin budget i) := by
  refine ⟨fun s => fixedSchedule_length s tmax tmin budget,
    fun t ht => ?_,
    fun s i hi => fixedTolAt_antitone s tmax tmin budget h0 h1 hB i hi,
    fun hlt i => fixedTolAt_strict_exp tmax tmin budget h0 hlt hB i⟩
  rw [fixedSchedule_getD .texp tmax tmin budget t ht]
  rfl

theorem abc_c4_witness :
    (0 : ℝ) < 1 ∧ (1 : ℝ) ≤ 2 ∧ 2 ≤ 2 ∧
    ((∀ s, (fixedSchedule s 2 1 2).length = 2) ∧
     (∀ t, t < 2 → (fixedSchedule .texp 2 1 2).getD t 0 =
       2 * ((1 : ℝ) / 2) ^ ((t : ℝ) / ((2 : ℕ) - 1 : ℝ))) ∧
     (∀ s i, i + 1 < 2 → fixedTolAt s 2 1 2 (i + 1) ≤ fixedTolAt s 2 1 2 i) ∧
     ((1 : ℝ) < 2 → ∀ i, fixedTolAt .texp 2 1 2 (i + 1) <
       fixedTolAt .texp 2 1 2 i)) :=
  ⟨by norm_num, by norm_num, le_refl 2,
   abc_c4_fixed_schedule 2 1 2 (by norm_num) (by norm_num) (le_refl 2)⟩

/-- Claim C5: the run loop stops exactly when the iteration budget is
exhausted or the tolerance has reached the configured floor, whichever
occurs first: at most `iteration_budget` iterations are recorded, any
record at or below the floor is the final one, and when the floor is
never reached (and no iteration aborts) exactly `iteration_budget`
iterations are performed. -/
theorem abc_c5_termination (cfg : Config) (cands : ℕ → ℕ → List ℚ)
    (dfunc : DistanceFn) (rawW : List ℚ → ℚ) (fixedTol : ℕ → ℚ) (fuel : ℕ)
    (hfail : (run cfg cands dfunc rawW fixedTol fuel).2 = false) :
    (run cfg cands dfunc rawW fixedTol fuel).1.length ≤ cfg.niter ∧
    (∀ i, i + 1 < (run cfg cands dfunc rawW fixedTol fuel).1.length →
      cfg.tmin <
        ((run cfg cands dfunc rawW fixedTol fuel).1.getD i ⟨0, 0, []⟩).tol) ∧
    ((∀ rc ∈ (run cfg cands dfunc rawW fixedTol fuel).1, cfg.tmin < rc.tol) →
      (run cfg cands dfunc rawW fixedTol fuel).1.length = cfg.niter) :=
  ⟨runAux_length_le cfg cands dfunc rawW fixedTol fuel cfg.niter 0 cfg.tmax,
   fun i hi => runAux_floor cfg cands dfunc rawW fixedTol fuel cfg.niter 0 cfg.tmax i hi,
   fun hall => runAux_full cfg cands dfunc rawW fixedTol fuel cfg.niter 0 cfg.tmax hfail hall⟩

theorem abc_c5_witness :
    (run exCfg exCands exDfunc exRawW exFixed 2).2 = false ∧
    ((run exCfg exCands exDfunc exRawW exFixed 2).1.length ≤ exCfg.niter ∧
     (∀ i, i + 1 < (run exCfg exCands exDfunc exRawW exFixed 2).1.length →
       exCfg.tmin <
         ((run exCfg exCands exDfunc exRawW exFixed 2).1.getD i ⟨0, 0, []⟩).tol) ∧
     ((∀ rc ∈ (run exCfg exCands exDfunc exRawW exFixed 2).1, exCfg.tmin < rc.tol) →
       (run exCfg exCands exDfunc exRawW exFixed 2).1.length = exCfg.niter)) :=
  ⟨by rw [exRun_eval],
   abc_c5_termination exCfg exCands exDfunc exRawW exFixed 2 (by rw [exRun_eval])⟩

/-- Claim C6: the checkpoint store round-trips exactly: for every
iteration index, tolerance value, and particle population, saving and
then loading returns the identical triple, with structural equality of
all particle parameter vectors, weights, and distances. -/
theorem abc_c6_checkpoint_roundtrip (it : ℕ) (tol : ℚ) (pop : List Particle) :
    loadCheckpoint (saveCheckpoint ⟨it, tol, pop⟩) = some ⟨it, tol, pop⟩ := by
  rw [saveCheckpoint, loadCheckpoint, ratToNat_natCast, ratToNat_natCast]
  rw [show encParticles pop = encParticles pop ++ [] from (List.append_nil _).symm,
    decParticles_enc]
  dsimp only
  rw [if_pos rfl]

/-- Claim C7: with the k-nearest-neighbour covariance method selected,
the configuration check fails with a ConfigurationError exactly when
`k_near ≤ 1` or `k_near ≥ particle_count`, and accepts exactly when
`1 < k_near < particle_count`. -/
theorem abc_c7_knn_configuration (kNear npart : ℕ) :
    ((∃ e, checkKNear kNear npart = .error e) ↔ kNear ≤ 1 ∨ npart ≤ kNear) ∧
    (checkKNear kNear npart = .ok () ↔ 1 < kNear ∧ kNear < npart) := by
  constructor
  · constructor
    · rintro ⟨e, he⟩
      by_contra hc
      rw [checkKNear, if_neg hc] at he
      exact absurd he (by simp)
    · intro h
      exact ⟨.configurationError, by rw [checkKNear, if_pos h]⟩
  · constructor
    · intro he
      by_cases h : kNear ≤ 1 ∨ npart ≤ kNear
      · rw [checkKNear, if_pos h] at he
        exact absurd he (by simp)
      · push_neg at h
        omega
    · intro h
      rw [checkKNear, if_neg (by omega)]

theorem abc_c7_witness :
    (∃ e, checkKNear 1 100 = .error e) ∧ checkKNear 10 100 = .ok () :=
  ⟨(abc_c7_knn_configuration 1 100).1.mpr (Or.inl (by decide)),
   (abc_c7_knn_configuration 10 100).2.mpr (by omega)⟩

/-- Claim C8: when the user-supplied simulation/distance function raises
on a proposal, the batch still returns one result per proposal, the
failing proposal is recorded with infinite distance, and an infinite
distance is rejected under every tolerance — an evaluation failure never
aborts the batch. -/
theorem abc_c8_evaluation_failure_recovered (dfunc : DistanceFn)
    (proposals : List (List ℚ)) (i : ℕ) (hi : i < proposals.length)
    (e : ABCError) (he : dfunc (proposals.getD i []) = .error e) :
    (evaluateBatch dfunc proposals).length = proposals.length ∧
    (evaluateBatch dfunc proposals).getD i ([], Dist.fin 0) =
      (proposals.getD i [], Dist.inf) ∧
    (∀ tol : ℚ, Dist.inf.accepted tol = false) := by
  refine ⟨by simp [evaluateBatch], ?_, fun tol => rfl⟩
  have hsome : proposals[i]? = some proposals[i] := List.getElem?_eq_getElem hi
  have hgetD : proposals.getD i [] = proposals[i] := by
    rw [List.getD_eq_getElem?_getD, hsome]
    rfl
  rw [hgetD] at he
  rw [evaluateBatch, List.getD_eq_getElem?_getD, List.getElem?_map, hsome, hgetD]
  simp [trialDist, he]

theorem abc_c8_witness :
    0 < ([[0]] : List (List ℚ)).length ∧
    exFailDfunc (([[0]] : List (List ℚ)).getD 0 []) = .error .evaluationFailure ∧
    ((evaluateBatch exFailDfunc [[0]]).length = ([[0]] : List (List ℚ)).length ∧
     (evaluateBatch exFailDfunc [[0]]).getD 0 ([], Dist.fin 0) =
       (([[0]] : List (List ℚ)).getD 0 [], Dist.inf) ∧
     (∀ tol : ℚ, Dist.inf.accepted tol = false)) :=
  ⟨by decide, rfl,
   abc_c8_evaluation_failure_recovered exFailDfunc [[0]] 0 (by decide)
     .evaluationFailure rfl⟩

/-- Claim C9: the perturbation kernel only returns proposals inside the
bounded prior's support, and when every draw within the retry budget
falls outside the support the kernel fails with ProposalExhausted
instead of looping forever. -/
theorem abc_c9_perturb_bounded (support : List ℚ → Bool) (draws : ℕ → List ℚ)
    (maxRetry : ℕ) :
    (∀ p, perturb support draws maxRetry = .ok p → support p = true) ∧
    ((∀ j, j < maxRetry → support (draws j) = false) →
      perturb support draws maxRetry = .error .proposalExhausted) := by
  have h := perturbAux_spec support draws maxRetry 0
  refine ⟨h.1, fun hall => h.2 ?_⟩
  intro j hj
  simpa using hall j hj

theorem abc_c9_witness :
    (∀ j, j < 2 → exRejectSupport (exCands 0 j) = false) ∧
    perturb exRejectSupport (exCands 0) 2 = .error .proposalExhausted :=
  ⟨fun _ _ => rfl,
   (abc_c9_perturb_bounded exRejectSupport (exCands 0) 2).2 (fun _ _ => rfl)⟩

/-- Claim C10: the tolerance used at iteration 0 of every run equals the
configured maximum tolerance, even when the adaptive schedule is
enabled: the adaptive quantile rule only determines tolerances from
iteration 1 onward (the first record's tolerance is `tmax` and its
iteration index is 0). -/
theorem abc_c10_initial_tolerance (cfg : Config) (cands : ℕ → ℕ → List ℚ)
    (dfunc : DistanceFn) (rawW : List ℚ → ℚ) (fixedTol : ℕ → ℚ) (fuel : ℕ)
    (rc : IterRecord) (rest : List IterRecord)
    (hrun : (run cfg cands dfunc rawW fixedTol fuel).1 = rc :: rest) :
    rc.tol = cfg.tmax ∧ rc.t = 0 :=
  runAux_head cfg cands dfunc rawW fixedTol fuel cfg.niter 0 cfg.tmax rc rest hrun

theorem abc_c10_witness :
    (run exCfg exCands exDfunc exRawW exFixed 2).1 =
      (⟨0, 1, exPop⟩ : IterRecord) :: [⟨1, 0, exPop⟩] ∧
    ((⟨0, 1, exPop⟩ : IterRecord).tol = exCfg.tmax ∧
      (⟨0, 1, exPop⟩ : IterRecord).t = 0) :=
  ⟨by rw [exRun_eval],
   abc_c10_initial_tolerance exCfg exCands exDfunc exRawW exFixed 2 _ _
     (by rw [exRun_eval])⟩

end AstroABC
